import Mathlib

/-!
Formal model of the DeCentGit indexer core (src/indexer/indexer.py and
src/indexer/db.py): signature verification of push attestations, the
chain-consistency check, and the per-cycle replay loop of process_chain
over blocks fetched from the node, together with the sqlite-backed store
(refs table plus the last_processed_block row of the meta table).
-/

/-- Python transaction record: a JSON object with string values, modelled as
an association list of key-value pairs (a Python dict; keys of an actual
dict are unique, which is stated as a hypothesis where it matters). -/
abbrev Tx := List (String × String)

/-- Lookup of a key in a dict. -/
def dictGet (t : Tx) (k : String) : Option String :=
  (t.find? (fun p => p.1 == k)).map (fun p => p.2)

/-- Membership test of a key in a dict, as the k in tx checks. -/
def dictHas (t : Tx) (k : String) : Bool :=
  t.any (fun p => p.1 == k)

/-- Keys of a Python dict are pairwise distinct. -/
abbrev keysNodup (t : Tx) : Prop := (t.map Prod.fst).Nodup

/-- Value of a hexadecimal digit character. -/
def hexDigitVal (c : Char) : Option Nat :=
  if 48 ≤ c.toNat ∧ c.toNat ≤ 57 then some (c.toNat - 48)
  else if 97 ≤ c.toNat ∧ c.toNat ≤ 102 then some (c.toNat - 87)
  else if 65 ≤ c.toNat ∧ c.toNat ≤ 70 then some (c.toNat - 55)
  else none

/-- Model of bytes.fromhex: two hex digits per byte, ASCII spaces allowed
between bytes; anything else, including an odd number of digits, raises
ValueError, modelled as none. -/
def fromhexChars : List Char → Option (List Nat)
  | [] => some []
  | ' ' :: rest => fromhexChars rest
  | c1 :: c2 :: rest =>
    match hexDigitVal c1, hexDigitVal c2, fromhexChars rest with
    | some h, some l, some bs => some ((h * 16 + l) :: bs)
    | _, _, _ => none
  | [_] => none

/-- Lowercase hexadecimal digit character. -/
def hexChar (n : Nat) : Char :=
  if n < 10 then Char.ofNat (48 + n) else Char.ofNat (87 + n)

/-- Four-digit lowercase hexadecimal string, as the %04x format used by the
json module for escapes. -/
def hex4 (n : Nat) : String :=
  String.mk [hexChar (n / 4096 % 16), hexChar (n / 256 % 16),
    hexChar (n / 16 % 16), hexChar (n % 16)]

/-- Escape of one character following json.dumps with its default
ensure_ascii=True: printable ASCII other than the quote and the backslash
is kept, the shorthand escapes cover the usual control characters, and
every other code point becomes a \uXXXX sequence (a surrogate pair beyond
the basic plane). -/
def jsonEscapeChar (c : Char) : String :=
  if c.toNat = 34 then "\\\""
  else if c.toNat = 92 then "\\\\"
  else if c.toNat = 8 then "\\b"
  else if c.toNat = 9 then "\\t"
  else if c.toNat = 10 then "\\n"
  else if c.toNat = 12 then "\\f"
  else if c.toNat = 13 then "\\r"
  else if 32 ≤ c.toNat ∧ c.toNat ≤ 126 then String.mk [c]
  else if c.toNat < 65536 then "\\u" ++ hex4 c.toNat
  else "\\u" ++ hex4 (55296 + (c.toNat - 65536) / 1024) ++
    "\\u" ++ hex4 (56320 + (c.toNat - 65536) % 1024)

/-- JSON string literal for s. -/
def jsonQuote (s : String) : String :=
  "\"" ++ String.join (s.data.map jsonEscapeChar) ++ "\""

/-- Serialization of a string-valued JSON object with the given item order,
using the default json.dumps separators. -/
def jsonDumpsItems (items : List (String × String)) : String :=
  "\x7b" ++ String.intercalate ", "
    (items.map (fun p => jsonQuote p.1 ++ ": " ++ jsonQuote p.2)) ++ "\x7d"

/-- Lexicographic code-point comparison of character lists, which is how
Python compares the strings that sort_keys=True sorts by. -/
def charsLe : List Char → List Char → Bool
  | [], _ => true
  | _ :: _, [] => false
  | a :: as, b :: bs =>
    if a.toNat < b.toNat then true
    else if b.toNat < a.toNat then false
    else charsLe as bs

/-- Python string comparison by code points. -/
def pyStrLe (a b : String) : Bool := charsLe a.data b.data

/-- Order on dict items by key, used by json.dumps when sort_keys=True. -/
abbrev itemLe (p q : String × String) : Prop := pyStrLe p.1 q.1 = true

/-- Abstract interface to the two ecdsa primitives the model does not
compute: decoding a NIST P-256 public key from a byte string of a
structurally acceptable length, and verifying an ECDSA signature over a
message under a decoded key. -/
structure Crypto where
  decodePoint : List Nat → Option (List Nat)
  ecdsaVerify : List Nat → String → List Nat → Bool

/-- Python exception that can escape verify_signature:
ecdsa.errors.MalformedPointError is declared as a subclass of
AssertionError in the ecdsa library, so the except clause of
verify_signature, which lists only BadSignatureError, KeyError and
ValueError, does not catch it. -/
inductive PyExc where
  | malformedPointError
deriving DecidableEq

/-- Model of ecdsa.VerifyingKey.from_string with curve=NIST256p: the byte
string must have the length of the raw (64 bytes), uncompressed or hybrid
(65 bytes), or compressed (33 bytes) point encoding and must decode to a
point on the curve; any other length, and any undecodable string of an
acceptable length, raises MalformedPointError. -/
def vk_from_string (C : Crypto) (s : List Nat) : Except PyExc (List Nat) :=
  if s.length = 64 ∨ s.length = 65 ∨ s.length = 33 then
    match C.decodePoint s with
    | some pk => Except.ok pk
    | none => Except.error PyExc.malformedPointError
  else Except.error PyExc.malformedPointError

/-- Field names kept by the dict comprehension in verify_signature. -/
def signedFields : List String := ["repo_id", "ref", "old_commit", "new_commit"]

/-- Model of the comprehension building attestation_data: the items of the
transaction whose key is one of the four signed fields. -/
def attestation_data (att : Tx) : Tx :=
  att.filter (fun p => signedFields.contains p.1)

/-- Canonical message json.dumps(attestation_data, sort_keys=True): the kept
items serialized in key order. -/
def canonical_message (att : Tx) : String :=
  jsonDumpsItems (List.insertionSort itemLe (attestation_data att))

/-- Model of verify_signature in indexer.py. The result is Except.error
when an exception escapes the function (only MalformedPointError can, being
an AssertionError) and Except.ok b when the function returns the boolean b;
BadSignatureError, KeyError and ValueError are caught and give False. A
signature that does not decode to exactly 64 bytes makes
sigdecode_string fail, which verify_digest wraps into the caught
BadSignatureError. -/
def verify_signature (C : Crypto) (att : Tx) : Except PyExc Bool :=
  match dictGet att "signer_identity" with
  | none => Except.ok false
  | some sihex =>
    match fromhexChars sihex.data with
    | none => Except.ok false
    | some keyBytes =>
      match vk_from_string C keyBytes with
      | Except.error e => Except.error e
      | Except.ok pk =>
        let message := canonical_message att
        match dictGet att "signature" with
        | none => Except.ok false
        | some sghex =>
          match fromhexChars sghex.data with
          | none => Except.ok false
          | some sigBytes =>
            if sigBytes.length = 64 then
              Except.ok (C.ecdsaVerify pk message sigBytes)
            else Except.ok false

/-- GENESIS_COMMIT sentinel from indexer.py. -/
def GENESIS_COMMIT : String := "0000000000000000000000000000000000000000"

/-- Row of the refs table apart from its primary key. -/
structure RefRow where
  commit_hash : String
  updated_at : Int
deriving DecidableEq

/-- Primary key (repo_id, ref_name) of the refs table. -/
abbrev RefKey := String × String

/-- Contents of the refs table: a finite map from its primary key. -/
abbrev RefMap := List (RefKey × RefRow)

/-- SELECT of the row with the given primary key. -/
def refsLookup (m : RefMap) (k : RefKey) : Option RefRow :=
  (m.find? (fun p => p.1 == k)).map (fun p => p.2)

/-- INSERT OR REPLACE INTO refs, keyed by the primary key. -/
def refsUpsert (m : RefMap) (k : RefKey) (r : RefRow) : RefMap :=
  match m with
  | [] => [(k, r)]
  | p :: rest => if p.1 = k then (k, r) :: rest else p :: refsUpsert rest k r

/-- Stored head for a key, reading the absence of a row as GENESIS. -/
def headOf (m : RefMap) (k : RefKey) : String :=
  ((refsLookup m k).map RefRow.commit_hash).getD GENESIS_COMMIT

/-- Durable contents of the sqlite database: the refs table and the
last_processed_block row of the meta table, which setup_database seeds
with 0 before the indexer loop starts. -/
structure Store where
  refs : RefMap
  last_processed_block : Int
deriving DecidableEq

/-- Block as fetched from the node. -/
structure Block where
  index : Int
  timestamp : Int
  transactions : List Tx
deriving DecidableEq

/-- Record of one accepted attestation, in the order the cycle committed
them. -/
structure Accepted where
  repo_id : String
  ref : String
  old_commit : String
  new_commit : String
deriving DecidableEq

/-- Refs-table key an accepted attestation is about. -/
def Accepted.key (e : Accepted) : RefKey := (e.repo_id, e.ref)

/-- Required attestation fields checked at the top of the transaction
loop. -/
def attestationKeys : List String :=
  ["repo_id", "ref", "old_commit", "new_commit", "signer_identity", "signature"]

/-- Decision on one transaction, from the body of the inner loop of
process_chain: skip it unless all six attestation fields are present, skip
it when the signature does not verify, skip it when old_commit differs
from the stored head, and otherwise upsert the new head with the block
timestamp. The refs argument is the uncommitted state of the refs table as
the cursor sees it. -/
def process_tx (C : Crypto) (refs : RefMap) (bts : Int) (tx : Tx) :
    Except PyExc (RefMap × Option Accepted) :=
  if attestationKeys.all (fun k => dictHas tx k) then
    match verify_signature C tx with
    | Except.error e => Except.error e
    | Except.ok false => Except.ok (refs, none)
    | Except.ok true =>
      let repo := (dictGet tx "repo_id").getD ""
      let rf := (dictGet tx "ref").getD ""
      let old := (dictGet tx "old_commit").getD ""
      let nw := (dictGet tx "new_commit").getD ""
      if old = headOf refs (repo, rf) then
        Except.ok (refsUpsert refs (repo, rf) (RefRow.mk nw bts),
          some (Accepted.mk repo rf old nw))
      else Except.ok (refs, none)
  else Except.ok (refs, none)

/-- Transaction loop of one block, threading the uncommitted refs state and
collecting the accepted attestations in block order. -/
def process_txs (C : Crypto) (refs : RefMap) (bts : Int) :
    List Tx → Except PyExc (RefMap × List Accepted)
  | [] => Except.ok (refs, [])
  | tx :: rest =>
    match process_tx C refs bts tx with
    | Except.error e => Except.error e
    | Except.ok (refs1, ev) =>
      match process_txs C refs1 bts rest with
      | Except.error e => Except.error e
      | Except.ok (refs2, evs) => Except.ok (refs2, ev.toList ++ evs)

/-- Outcome kind of one process_chain call: requestException and
sqliteError are caught by the surrounding except clauses, so the cycle is
abandoned, the connection closed and the poll loop goes on, while
assertionError (a MalformedPointError escaping verify_signature) propagates
out of process_chain uncaught. -/
inductive CycleErr where
  | requestException
  | sqliteError
  | assertionError
deriving DecidableEq

/-- Result of one process_chain call: the committed store, the accepted
attestations of the committed blocks in order, and the outcome kind. -/
structure CycleResult where
  store : Store
  accepted : List Accepted
  err : Option CycleErr
deriving DecidableEq

/-- Relation ordering blocks by index, as the sorted call in
process_chain. -/
def blockLe (a b : Block) : Prop := a.index ≤ b.index

instance : DecidableRel blockLe := fun a b => Int.decLe a.index b.index

/-- Per-block loop of process_chain, with fault injection for the durable
store: failAt = some (k, j) means the j-th sqlite write statement issued
while processing the k-th remaining block (its row upserts in order, then
the checkpoint UPDATE, then the COMMIT) raises sqlite3.Error. All writes of
a block live in one sqlite transaction that conn.commit() at the end of the
block makes durable, so a cycle abandoned before that point loses them when
the connection is closed: the committed store keeps its pre-block value,
and the accepted list carries only the attestations of committed blocks.
When both a MalformedPointError and an injected fault could arise in a
block, the model reports the former; either way nothing of the block is
committed. -/
def run_blocks (C : Crypto) : Option (Nat × Nat) → List Block → Store → CycleResult
  | _, [], st => CycleResult.mk st [] none
  | failAt, b :: rest, st =>
    match process_txs C st.refs b.timestamp b.transactions with
    | Except.error _ => CycleResult.mk st [] (some CycleErr.assertionError)
    | Except.ok (refs1, evs) =>
      match failAt with
      | some (0, j) =>
        if j < evs.length + 2 then CycleResult.mk st [] (some CycleErr.sqliteError)
        else
          let r := run_blocks C none rest (Store.mk refs1 b.index)
          CycleResult.mk r.store (evs ++ r.accepted) r.err
      | some (k + 1, j) =>
        let r := run_blocks C (some (k, j)) rest (Store.mk refs1 b.index)
        CycleResult.mk r.store (evs ++ r.accepted) r.err
      | none =>
        let r := run_blocks C none rest (Store.mk refs1 b.index)
        CycleResult.mk r.store (evs ++ r.accepted) r.err

/-- Model of one process_chain call. The fetch argument is the outcome of
requests.get on NODE_URL/chain: an error stands for any RequestException
(unreachable node, non-2xx status via raise_for_status, timeout), which
process_chain catches after having only read the checkpoint, so nothing is
mutated. On a successful fetch the blocks with index at most the checkpoint
are filtered out and the rest are processed in ascending index order. -/
def run_cycleF (C : Crypto) (fetch : Except Unit (List Block))
    (failAt : Option (Nat × Nat)) (st : Store) : CycleResult :=
  match fetch with
  | Except.error _ => CycleResult.mk st [] (some CycleErr.requestException)
  | Except.ok chain =>
    let newBlocks := chain.filter (fun b => st.last_processed_block < b.index)
    if newBlocks.isEmpty then CycleResult.mk st [] none
    else run_blocks C failAt (List.insertionSort blockLe newBlocks) st

/-- Committed store after one fault-free process_chain call. -/
def run_cycle (C : Crypto) (fetch : Except Unit (List Block)) (st : Store) : Store :=
  (run_cycleF C fetch none st).store

/-- Fold of successive process_chain calls (one per poll-loop turn), each
with its own fetch outcome and store-fault specification, collecting every
accepted attestation in order. -/
def run_cycles (C : Crypto) :
    List (Except Unit (List Block) × Option (Nat × Nat)) → Store → Store × List Accepted
  | [], st => (st, [])
  | f :: rest, st =>
    let r := run_cycleF C f.1 f.2 st
    let q := run_cycles C rest r.store
    (q.1, r.accepted ++ q.2)

/-- Accepted attestations concerning one (repo_id, ref) key, in order. -/
def eventsOn (k : RefKey) (evs : List Accepted) : List Accepted :=
  evs.filter (fun e => e.key == k)

/-- Chain predicate: every event states as old_commit exactly the head left
by the previous event, with h at the start. -/
def chainFrom (h : String) : List Accepted → Bool
  | [] => true
  | e :: rest => (e.old_commit == h) && chainFrom e.new_commit rest

/-- Head value after a list of events, starting from h. -/
def lastHead (h : String) (evs : List Accepted) : String :=
  ((evs.getLast?).map Accepted.new_commit).getD h

/-- Crypto instance for concrete examples: every structurally valid key
decodes to itself and every well-formed signature verifies. -/
def allCrypto : Crypto := Crypto.mk (fun s => some s) (fun _ _ _ => true)

/-- 128 hex characters, giving the 64 bytes of a raw P-256 key or of a raw
signature. -/
def zeros128 : String := String.mk (List.replicate 128 '0')

/-- Concrete 40-character commit ids for examples. -/
def commitA : String := String.mk (List.replicate 40 'a')

def commitB : String := String.mk (List.replicate 40 'b')

/-- Concrete attestation moving r1/main from old to nw. -/
def txGen (old nw : String) : Tx :=
  [("repo_id", "r1"), ("ref", "main"), ("old_commit", old), ("new_commit", nw),
   ("signer_identity", zeros128), ("signature", zeros128)]

/-! Order facts about the code-point comparison used for dict-key sorting. -/

theorem charsLe_total (as bs : List Char) : charsLe as bs = true ∨ charsLe bs as = true := by
  induction as generalizing bs with
  | nil => left; rfl
  | cons a as ih =>
    cases bs with
    | nil => right; rfl
    | cons b bs =>
      by_cases hab : a.toNat < b.toNat
      · left; simp [charsLe, hab]
      · by_cases hba : b.toNat < a.toNat
        · right; simp [charsLe, hab, hba]
        · rcases ih bs with h | h
          · left; simp [charsLe, hab, hba, h]
          · right; simp [charsLe, hab, hba, h]

theorem charsLe_trans (as bs cs : List Char) (h1 : charsLe as bs = true)
    (h2 : charsLe bs cs = true) : charsLe as cs = true := by
  induction as generalizing bs cs with
  | nil => rfl
  | cons a as ih =>
    cases bs with
    | nil => simp [charsLe] at h1
    | cons b bs =>
      cases cs with
      | nil => simp [charsLe] at h2
      | cons c cs =>
        by_cases hac : a.toNat < c.toNat
        · simp [charsLe, hac]
        · by_cases hca : c.toNat < a.toNat
          · exfalso
            by_cases hab : a.toNat < b.toNat <;> by_cases hba : b.toNat < a.toNat <;>
              by_cases hbc : b.toNat < c.toNat <;> by_cases hcb : c.toNat < b.toNat <;>
              simp [charsLe, hab, hba, hbc, hcb] at h1 h2 <;> omega
          · simp only [charsLe, if_neg hac, if_neg hca]
            by_cases hab : a.toNat < b.toNat <;> by_cases hba : b.toNat < a.toNat <;>
              by_cases hbc : b.toNat < c.toNat <;> by_cases hcb : c.toNat < b.toNat <;>
              simp [charsLe, hab, hba, hbc, hcb] at h1 h2 <;>
              first
                | omega
                | exact ih bs cs h1 h2

theorem charsLe_antisymm (as bs : List Char) (h1 : charsLe as bs = true)
    (h2 : charsLe bs as = true) : as = bs := by
  induction as generalizing bs with
  | nil =>
    cases bs with
    | nil => rfl
    | cons b bs => simp [charsLe] at h2
  | cons a as ih =>
    cases bs with
    | nil => simp [charsLe] at h1
    | cons b bs =>
      by_cases hab : a.toNat < b.toNat
      · have hba : ¬ b.toNat < a.toNat := by omega
        simp [charsLe, hab, hba] at h2
      · by_cases hba : b.toNat < a.toNat
        · simp [charsLe, hab, hba] at h1
        · simp only [charsLe, if_neg hab, if_neg hba] at h1 h2
          have hnat : a.toNat = b.toNat := by omega
          have hc : a = b := Char.ext (UInt32.toNat.inj hnat)
          rw [hc, ih bs h1 h2]

theorem pyStrLe_total (a b : String) : pyStrLe a b = true ∨ pyStrLe b a = true :=
  charsLe_total a.data b.data

theorem pyStrLe_trans (a b c : String) (h1 : pyStrLe a b = true)
    (h2 : pyStrLe b c = true) : pyStrLe a c = true :=
  charsLe_trans a.data b.data c.data h1 h2

theorem pyStrLe_antisymm (a b : String) (h1 : pyStrLe a b = true)
    (h2 : pyStrLe b a = true) : a = b := by
  cases a with
  | mk da =>
    cases b with
    | mk db =>
      have : da = db := charsLe_antisymm da db h1 h2
      rw [this]

instance : IsTotal (String × String) itemLe :=
  IsTotal.mk (fun p q => pyStrLe_total p.1 q.1)

instance : IsTrans (String × String) itemLe :=
  IsTrans.mk (fun p q r h1 h2 => pyStrLe_trans p.1 q.1 r.1 h1 h2)

instance : IsTotal Block blockLe :=
  IsTotal.mk (fun a b => Int.le_total a.index b.index)

instance : IsTrans Block blockLe :=
  IsTrans.mk (fun _ _ _ h1 h2 => Int.le_trans h1 h2)

/-- Two lists that are sorted by a relation antisymmetric up to a key, are
permutations of each other, and have pairwise distinct keys on the first
list, are equal. Used for the sorted calls of the model: a stable sort is
determined by its output multiset once keys are distinct. -/
theorem sorted_perm_key_eq {α β : Type} (f : α → β) (le : α → α → Prop)
    (hanti : ∀ a b, le a b → le b a → f a = f b) :
    ∀ l₁ l₂ : List α, List.Perm l₁ l₂ → List.Sorted le l₁ → List.Sorted le l₂ →
      (l₁.map f).Nodup → l₁ = l₂ := by
  intro l₁
  induction l₁ with
  | nil =>
    intro l₂ hp _ _ _
    exact (hp.symm.eq_nil).symm
  | cons a t ih =>
    intro l₂ hp hs₁ hs₂ hnd
    cases l₂ with
    | nil => exact absurd hp.eq_nil (by simp)
    | cons b t₂ =>
      have hnd' : (t.map f).Nodup := (List.nodup_cons.mp (by simpa using hnd)).2
      have hmemf : f a ∉ t.map f := (List.nodup_cons.mp (by simpa using hnd)).1
      have hab : a = b := by
        by_contra hne
        have ha2 : a ∈ b :: t₂ := hp.subset (List.mem_cons_self a t)
        have hb1 : b ∈ a :: t := hp.symm.subset (List.mem_cons_self b t₂)
        have ha2' : a ∈ t₂ := by
          rcases List.mem_cons.mp ha2 with h | h
          · exact absurd h hne
          · exact h
        have hb1' : b ∈ t := by
          rcases List.mem_cons.mp hb1 with h | h
          · exact absurd h.symm hne
          · exact h
        have h1 : le a b := List.rel_of_sorted_cons hs₁ b hb1'
        have h2 : le b a := List.rel_of_sorted_cons hs₂ a ha2'
        have hfab : f a = f b := hanti a b h1 h2
        have : f b ∈ t.map f := List.mem_map_of_mem f hb1'
        rw [← hfab] at this
        exact hmemf this
      subst hab
      rw [ih t₂ hp.cons_inv hs₁.of_cons hs₂.of_cons hnd']

/-! Lookup lemmas for dicts and for the refs table. -/

theorem dictGet_cons (p : String × String) (rest : Tx) (k : String) :
    dictGet (p :: rest) k = if (p.1 == k) = true then some p.2 else dictGet rest k := by
  by_cases h : (p.1 == k) = true
  · simp [dictGet, List.find?_cons_of_pos _ h, h]
  · have hb : ¬ ((fun q : String × String => q.1 == k) p) = true := h
    simp [dictGet, List.find?_cons_of_neg _ hb, h]

theorem dictHas_cons (p : String × String) (rest : Tx) (k : String) :
    dictHas (p :: rest) k = ((p.1 == k) || dictHas rest k) := by
  simp [dictHas]

theorem dictGet_isSome_of_has (t : Tx) (k : String) (h : dictHas t k = true) :
    ∃ v, dictGet t k = some v := by
  induction t with
  | nil => simp [dictHas] at h
  | cons p rest ih =>
    rw [dictGet_cons]
    by_cases hpk : (p.1 == k) = true
    · exact ⟨p.2, by simp [hpk]⟩
    · have h' : dictHas rest k = true := by
        rw [dictHas_cons] at h
        simpa [hpk] using h
      obtain ⟨v, hv⟩ := ih h'
      exact ⟨v, by simp [hpk, hv]⟩

theorem keysNodup_cons (p : String × String) (rest : Tx) (hnd : keysNodup (p :: rest)) :
    p.1 ∉ rest.map Prod.fst ∧ keysNodup rest := by
  have h0 : (p.1 :: rest.map Prod.fst).Nodup := hnd
  exact List.nodup_cons.mp h0

theorem dictGet_eq_iff_mem (t : Tx) (hnd : keysNodup t) (k v : String) :
    dictGet t k = some v ↔ (k, v) ∈ t := by
  induction t with
  | nil => simp [dictGet]
  | cons p rest ih =>
    obtain ⟨hno, hnd'⟩ := keysNodup_cons p rest hnd
    rw [dictGet_cons]
    by_cases h : (p.1 == k) = true
    · have hk : p.1 = k := by simpa using h
      simp only [if_pos h]
      constructor
      · intro hv
        have hv' : v = p.2 := by
          injection hv with hv
          exact hv.symm
        subst hv'
        subst hk
        exact List.mem_cons_self p rest
      · intro hmem
        rcases List.mem_cons.mp hmem with he | he
        · rw [← he]
        · exfalso
          apply hno
          rw [hk]
          exact List.mem_map_of_mem Prod.fst he
    · have hk : p.1 ≠ k := by simpa using h
      simp only [if_neg h]
      rw [ih hnd']
      constructor
      · intro hm
        exact List.mem_cons_of_mem _ hm
      · intro hm
        rcases List.mem_cons.mp hm with he | he
        · exact absurd (by rw [← he]) hk
        · exact he

theorem refsLookup_cons (p : RefKey × RefRow) (rest : RefMap) (k : RefKey) :
    refsLookup (p :: rest) k = if (p.1 == k) = true then some p.2 else refsLookup rest k := by
  by_cases h : (p.1 == k) = true
  · simp [refsLookup, List.find?_cons_of_pos _ h, h]
  · have hb : ¬ ((fun q : RefKey × RefRow => q.1 == k) p) = true := h
    simp [refsLookup, List.find?_cons_of_neg _ hb, h]

theorem refsLookup_upsert_self (m : RefMap) (k : RefKey) (r : RefRow) :
    refsLookup (refsUpsert m k r) k = some r := by
  induction m with
  | nil => simp [refsUpsert, refsLookup]
  | cons p rest ih =>
    by_cases h : p.1 = k
    · simp only [refsUpsert, if_pos h]
      rw [refsLookup_cons]
      simp
    · have hb : (p.1 == k) = false := by simpa using h
      simp only [refsUpsert, if_neg h]
      rw [refsLookup_cons]
      simp [hb, ih]

theorem refsLookup_upsert_ne (m : RefMap) (k k' : RefKey) (r : RefRow) (h : k' ≠ k) :
    refsLookup (refsUpsert m k r) k' = refsLookup m k' := by
  have hb : (k == k') = false := by simpa using Ne.symm h
  induction m with
  | nil =>
    simp only [refsUpsert]
    rw [refsLookup_cons]
    simp [hb, refsLookup]
  | cons p rest ih =>
    by_cases hp : p.1 = k
    · simp only [refsUpsert, if_pos hp]
      rw [refsLookup_cons, refsLookup_cons]
      have hb2 : (p.1 == k') = false := by
        rw [hp]
        exact hb
      simp [hb, hb2]
    · simp only [refsUpsert, if_neg hp]
      rw [refsLookup_cons, refsLookup_cons, ih]

theorem headOf_upsert_self (m : RefMap) (k : RefKey) (nw : String) (ts : Int) :
    headOf (refsUpsert m k (RefRow.mk nw ts)) k = nw := by
  simp [headOf, refsLookup_upsert_self]

theorem headOf_upsert_ne (m : RefMap) (k k' : RefKey) (r : RefRow) (h : k' ≠ k) :
    headOf (refsUpsert m k r) k' = headOf m k' := by
  simp [headOf, refsLookup_upsert_ne m k k' r h]

theorem headOf_of_none (m : RefMap) (k : RefKey) (h : refsLookup m k = none) :
    headOf m k = GENESIS_COMMIT := by
  simp [headOf, h]

/-! Behavior of the per-transaction decision. -/

theorem process_tx_skip_missing (C : Crypto) (refs : RefMap) (bts : Int) (tx : Tx)
    (h : attestationKeys.all (fun k => dictHas tx k) = false) :
    process_tx C refs bts tx = Except.ok (refs, none) := by
  simp [process_tx, h]

theorem process_tx_skip_badsig (C : Crypto) (refs : RefMap) (bts : Int) (tx : Tx)
    (h : verify_signature C tx = Except.ok false) :
    process_tx C refs bts tx = Except.ok (refs, none) := by
  by_cases hall : attestationKeys.all (fun k => dictHas tx k) = true
  · simp [process_tx, hall, h]
  · simp [process_tx, hall]

theorem process_tx_skip_stale (C : Crypto) (refs : RefMap) (bts : Int) (tx : Tx)
    (h : verify_signature C tx = Except.ok true)
    (hne : (dictGet tx "old_commit").getD "" ≠
      headOf refs ((dictGet tx "repo_id").getD "", (dictGet tx "ref").getD "")) :
    process_tx C refs bts tx = Except.ok (refs, none) := by
  by_cases hall : attestationKeys.all (fun k => dictHas tx k) = true
  · simp [process_tx, hall, h, hne]
  · simp [process_tx, hall]

theorem process_tx_accept (C : Crypto) (refs : RefMap) (bts : Int) (tx : Tx)
    (hall : attestationKeys.all (fun k => dictHas tx k) = true)
    (h : verify_signature C tx = Except.ok true)
    (heq : (dictGet tx "old_commit").getD "" =
      headOf refs ((dictGet tx "repo_id").getD "", (dictGet tx "ref").getD "")) :
    process_tx C refs bts tx = Except.ok
      (refsUpsert refs ((dictGet tx "repo_id").getD "", (dictGet tx "ref").getD "")
        (RefRow.mk ((dictGet tx "new_commit").getD "") bts),
       some (Accepted.mk ((dictGet tx "repo_id").getD "") ((dictGet tx "ref").getD "")
         ((dictGet tx "old_commit").getD "") ((dictGet tx "new_commit").getD ""))) := by
  simp [process_tx, hall, h, heq]

theorem process_tx_raises (C : Crypto) (refs : RefMap) (bts : Int) (tx : Tx)
    (hall : attestationKeys.all (fun k => dictHas tx k) = true) (e : PyExc)
    (hsig : verify_signature C tx = Except.error e) :
    process_tx C refs bts tx = Except.error e := by
  simp [process_tx, hall, hsig]

theorem process_tx_effect (C : Crypto) (refs : RefMap) (bts : Int) (tx : Tx)
    (refs1 : RefMap) (ev : Option Accepted)
    (h : process_tx C refs bts tx = Except.ok (refs1, ev)) :
    (refs1 = refs ∧ ev = none)
    ∨ (∃ a : Accepted, ev = some a ∧ a.old_commit = headOf refs a.key ∧
        refs1 = refsUpsert refs a.key (RefRow.mk a.new_commit bts)) := by
  by_cases hall : attestationKeys.all (fun k => dictHas tx k) = true
  · cases hsig : verify_signature C tx with
    | error e =>
      rw [process_tx_raises C refs bts tx hall e hsig] at h
      cases h
    | ok b =>
      cases b with
      | false =>
        rw [process_tx_skip_badsig C refs bts tx hsig] at h
        have h' : refs = refs1 ∧ (none : Option Accepted) = ev := by
          injection h with h0
          injection h0 with h1 h2
          exact ⟨h1, h2⟩
        exact Or.inl ⟨h'.1.symm, h'.2.symm⟩
      | true =>
        by_cases heq : (dictGet tx "old_commit").getD "" =
            headOf refs ((dictGet tx "repo_id").getD "", (dictGet tx "ref").getD "")
        · rw [process_tx_accept C refs bts tx hall hsig heq] at h
          have h' := h
          injection h' with h0
          injection h0 with h1 h2
          refine Or.inr ⟨Accepted.mk ((dictGet tx "repo_id").getD "")
            ((dictGet tx "ref").getD "") ((dictGet tx "old_commit").getD "")
            ((dictGet tx "new_commit").getD ""), h2.symm, ?_, h1.symm⟩
          exact heq
        · rw [process_tx_skip_stale C refs bts tx hsig heq] at h
          have h' : refs = refs1 ∧ (none : Option Accepted) = ev := by
            injection h with h0
            injection h0 with h1 h2
            exact ⟨h1, h2⟩
          exact Or.inl ⟨h'.1.symm, h'.2.symm⟩
  · rw [process_tx_skip_missing C refs bts tx (by simpa using hall)] at h
    have h' : refs = refs1 ∧ (none : Option Accepted) = ev := by
      injection h with h0
      injection h0 with h1 h2
      exact ⟨h1, h2⟩
    exact Or.inl ⟨h'.1.symm, h'.2.symm⟩

/-! Algebra of accepted-event lists. -/

theorem lastHead_cons (h : String) (e : Accepted) (l : List Accepted) :
    lastHead h (e :: l) = lastHead e.new_commit l := by
  cases l with
  | nil => rfl
  | cons x xs =>
    simp only [lastHead, List.getLast?_cons_cons]
    cases hgl : (x :: xs).getLast? with
    | none => simp at hgl
    | some z => simp [hgl]

theorem lastHead_append (h : String) (l₁ l₂ : List Accepted) :
    lastHead h (l₁ ++ l₂) = lastHead (lastHead h l₁) l₂ := by
  induction l₁ generalizing h with
  | nil => rfl
  | cons e t ih => rw [List.cons_append, lastHead_cons, lastHead_cons, ih]

theorem chainFrom_append (h : String) (l₁ l₂ : List Accepted) :
    chainFrom h (l₁ ++ l₂) = (chainFrom h l₁ && chainFrom (lastHead h l₁) l₂) := by
  induction l₁ generalizing h with
  | nil => simp [chainFrom, lastHead]
  | cons e t ih =>
    rw [List.cons_append]
    simp only [chainFrom]
    rw [ih e.new_commit, lastHead_cons, Bool.and_assoc]

theorem eventsOn_append (k : RefKey) (l₁ l₂ : List Accepted) :
    eventsOn k (l₁ ++ l₂) = eventsOn k l₁ ++ eventsOn k l₂ := by
  simp [eventsOn, List.filter_append]

/-- Per-key effect of the transaction loop of one block: the accepted
events on any key chain from the head the loop started with, and the head
the loop ends with is the last accepted new_commit (or the starting head
when nothing on that key was accepted). -/
theorem process_txs_key (C : Crypto) (bts : Int) (k : RefKey) :
    ∀ (txs : List Tx) (refs refs1 : RefMap) (evs : List Accepted),
      process_txs C refs bts txs = Except.ok (refs1, evs) →
      chainFrom (headOf refs k) (eventsOn k evs) = true ∧
      headOf refs1 k = lastHead (headOf refs k) (eventsOn k evs) := by
  intro txs
  induction txs with
  | nil =>
    intro refs refs1 evs h
    have h' : refs = refs1 ∧ ([] : List Accepted) = evs := by
      simp only [process_txs] at h
      injection h with h0
      injection h0 with h1 h2
      exact ⟨h1, h2⟩
    obtain ⟨h1, h2⟩ := h'
    subst h1
    subst h2
    simp [eventsOn, chainFrom, lastHead]
  | cons tx rest ih =>
    intro refs refs1 evs h
    cases h1 : process_tx C refs bts tx with
    | error e =>
      simp only [process_txs, h1] at h
      cases h
    | ok pr =>
      obtain ⟨refsA, ev⟩ := pr
      cases h2 : process_txs C refsA bts rest with
      | error e =>
        simp only [process_txs, h1, h2] at h
        cases h
      | ok pr2 =>
        obtain ⟨refsB, evsB⟩ := pr2
        simp only [process_txs, h1, h2] at h
        have h' : refsB = refs1 ∧ ev.toList ++ evsB = evs := by
          injection h with h0
          injection h0 with ha hb
          exact ⟨ha, hb⟩
        obtain ⟨hB, hevs⟩ := h'
        subst hB
        subst hevs
        rcases process_tx_effect C refs bts tx refsA ev h1 with ⟨hrA, hev⟩ | ⟨a, hev, hold, hrA⟩
        · have hrec := ih refsA refsB evsB h2
          rw [hrA] at hrec
          rw [hev]
          simpa using hrec
        · have hrec := ih refsA refsB evsB h2
          rw [hrA] at hrec
          have hup : headOf (refsUpsert refs a.key (RefRow.mk a.new_commit bts)) a.key
              = a.new_commit := headOf_upsert_self refs a.key a.new_commit bts
          rw [hev]
          by_cases hk : a.key = k
          · subst hk
            have hflt : eventsOn a.key ((some a).toList ++ evsB) = a :: eventsOn a.key evsB := by
              simp [eventsOn]
            rw [hflt, lastHead_cons]
            rw [hup] at hrec
            constructor
            · simp only [chainFrom]
              rw [hold]
              simp only [beq_self_eq_true, Bool.true_and]
              exact hrec.1
            · exact hrec.2
          · have hbk : (a.key == k) = false := by simpa using hk
            have hflt : eventsOn k ((some a).toList ++ evsB) = eventsOn k evsB := by
              simp [eventsOn, hbk]
            rw [hflt]
            rw [headOf_upsert_ne refs a.key k (RefRow.mk a.new_commit bts) (Ne.symm hk)] at hrec
            exact hrec

/-- Skipped transactions do not stop the loop: when the decision leaves the
refs unchanged and accepts nothing, the rest of the block is processed as
if the transaction were absent. -/
theorem process_txs_skip (C : Crypto) (refs : RefMap) (bts : Int) (tx : Tx)
    (rest : List Tx) (h : process_tx C refs bts tx = Except.ok (refs, none)) :
    process_txs C refs bts (tx :: rest) = process_txs C refs bts rest := by
  simp only [process_txs, h]
  cases h2 : process_txs C refs bts rest with
  | error e => rfl
  | ok pr => simp

/-! Per-key invariants through the per-block loop. -/

theorem run_blocks_key_step (C : Crypto) (k : RefKey) (b : Block) (rest : List Block)
    (st : Store) (refs1 : RefMap) (evs : List Accepted) (failAt2 : Option (Nat × Nat))
    (hp : process_txs C st.refs b.timestamp b.transactions = Except.ok (refs1, evs))
    (ihp : chainFrom (headOf refs1 k)
        (eventsOn k (run_blocks C failAt2 rest (Store.mk refs1 b.index)).accepted) = true ∧
      headOf (run_blocks C failAt2 rest (Store.mk refs1 b.index)).store.refs k
        = lastHead (headOf refs1 k)
            (eventsOn k (run_blocks C failAt2 rest (Store.mk refs1 b.index)).accepted)) :
    chainFrom (headOf st.refs k)
      (eventsOn k (evs ++ (run_blocks C failAt2 rest (Store.mk refs1 b.index)).accepted)) = true ∧
    headOf (run_blocks C failAt2 rest (Store.mk refs1 b.index)).store.refs k
      = lastHead (headOf st.refs k)
          (eventsOn k (evs ++ (run_blocks C failAt2 rest (Store.mk refs1 b.index)).accepted)) := by
  have hkey := process_txs_key C b.timestamp k b.transactions st.refs refs1 evs hp
  rw [eventsOn_append, chainFrom_append, lastHead_append, ← hkey.2]
  constructor
  · rw [hkey.1]
    simpa using ihp.1
  · exact ihp.2

theorem run_blocks_key (C : Crypto) (k : RefKey) :
    ∀ (blocks : List Block) (failAt : Option (Nat × Nat)) (st : Store),
      chainFrom (headOf st.refs k) (eventsOn k (run_blocks C failAt blocks st).accepted) = true ∧
      headOf (run_blocks C failAt blocks st).store.refs k
        = lastHead (headOf st.refs k) (eventsOn k (run_blocks C failAt blocks st).accepted) := by
  intro blocks
  induction blocks with
  | nil =>
    intro failAt st
    simp [run_blocks, eventsOn, chainFrom, lastHead]
  | cons b rest ih =>
    intro failAt st
    cases hp : process_txs C st.refs b.timestamp b.transactions with
    | error e =>
      simp [run_blocks, hp, eventsOn, chainFrom, lastHead]
    | ok pr =>
      obtain ⟨refs1, evs⟩ := pr
      cases failAt with
      | none =>
        simp only [run_blocks, hp]
        exact run_blocks_key_step C k b rest st refs1 evs none hp
          (ih none (Store.mk refs1 b.index))
      | some kj =>
        obtain ⟨k0, j⟩ := kj
        cases k0 with
        | zero =>
          by_cases hj : j < evs.length + 2
          · simp [run_blocks, hp, hj, eventsOn, chainFrom, lastHead]
          · simp only [run_blocks, hp, if_neg hj]
            exact run_blocks_key_step C k b rest st refs1 evs none hp
              (ih none (Store.mk refs1 b.index))
        | succ k0 =>
          simp only [run_blocks, hp]
          exact run_blocks_key_step C k b rest st refs1 evs (some (k0, j)) hp
            (ih (some (k0, j)) (Store.mk refs1 b.index))

/-! Checkpoint behavior of the per-block loop. -/

theorem run_blocks_lpb_mem (C : Crypto) :
    ∀ (blocks : List Block) (failAt : Option (Nat × Nat)) (st : Store),
      (run_blocks C failAt blocks st).store.last_processed_block = st.last_processed_block
      ∨ (run_blocks C failAt blocks st).store.last_processed_block ∈ blocks.map Block.index := by
  intro blocks
  induction blocks with
  | nil =>
    intro failAt st
    left
    rfl
  | cons b rest ih =>
    intro failAt st
    cases hp : process_txs C st.refs b.timestamp b.transactions with
    | error e =>
      left
      simp [run_blocks, hp]
    | ok pr =>
      obtain ⟨refs1, evs⟩ := pr
      have step : ∀ failAt2,
          (run_blocks C failAt2 rest (Store.mk refs1 b.index)).store.last_processed_block
            = b.index
          ∨ (run_blocks C failAt2 rest (Store.mk refs1 b.index)).store.last_processed_block
            ∈ rest.map Block.index :=
        fun failAt2 => ih failAt2 (Store.mk refs1 b.index)
      cases failAt with
      | none =>
        simp only [run_blocks, hp]
        rcases step none with h | h
        · right
          rw [h]
          exact List.mem_cons_self b.index (rest.map Block.index)
        · right
          exact List.mem_cons_of_mem b.index h
      | some kj =>
        obtain ⟨k0, j⟩ := kj
        cases k0 with
        | zero =>
          by_cases hj : j < evs.length + 2
          · left
            simp [run_blocks, hp, hj]
          · simp only [run_blocks, hp, if_neg hj]
            rcases step none with h | h
            · right
              rw [h]
              exact List.mem_cons_self b.index (rest.map Block.index)
            · right
              exact List.mem_cons_of_mem b.index h
        | succ k0 =>
          simp only [run_blocks, hp]
          rcases step (some (k0, j)) with h | h
          · right
            rw [h]
            exact List.mem_cons_self b.index (rest.map Block.index)
          · right
            exact List.mem_cons_of_mem b.index h

theorem run_blocks_lpb_mono (C : Crypto) (blocks : List Block) (st : Store)
    (hgt : ∀ b ∈ blocks, st.last_processed_block < b.index) (failAt : Option (Nat × Nat)) :
    st.last_processed_block ≤ (run_blocks C failAt blocks st).store.last_processed_block := by
  rcases run_blocks_lpb_mem C blocks failAt st with h | h
  · rw [h]
  · obtain ⟨b, hb, hidx⟩ := List.mem_map.mp h
    rw [← hidx]
    exact le_of_lt (hgt b hb)

theorem run_blocks_none_no_sqlite (C : Crypto) :
    ∀ (blocks : List Block) (st : Store),
      (run_blocks C none blocks st).err ≠ some CycleErr.sqliteError := by
  intro blocks
  induction blocks with
  | nil =>
    intro st
    simp [run_blocks]
  | cons b rest ih =>
    intro st
    cases hp : process_txs C st.refs b.timestamp b.transactions with
    | error e => simp [run_blocks, hp]
    | ok pr =>
      obtain ⟨refs1, evs⟩ := pr
      simp only [run_blocks, hp]
      exact ih (Store.mk refs1 b.index)

theorem run_blocks_fault_prefix (C : Crypto) :
    ∀ (blocks : List Block) (k j : Nat) (st : Store),
      (run_blocks C (some (k, j)) blocks st).err = some CycleErr.sqliteError →
      (run_blocks C (some (k, j)) blocks st).store
        = (run_blocks C none (blocks.take k) st).store
      ∧ (run_blocks C (some (k, j)) blocks st).accepted
        = (run_blocks C none (blocks.take k) st).accepted := by
  intro blocks
  induction blocks with
  | nil =>
    intro k j st h
    simp [run_blocks] at h
  | cons b rest ih =>
    intro k j st h
    cases hp : process_txs C st.refs b.timestamp b.transactions with
    | error e =>
      simp [run_blocks, hp] at h
    | ok pr =>
      obtain ⟨refs1, evs⟩ := pr
      cases k with
      | zero =>
        by_cases hj : j < evs.length + 2
        · constructor <;> simp [run_blocks, hp, hj]
        · exfalso
          simp only [run_blocks, hp, if_neg hj] at h
          exact run_blocks_none_no_sqlite C rest (Store.mk refs1 b.index) h
      | succ k0 =>
        simp only [run_blocks, hp] at h
        have hrec := ih k0 j (Store.mk refs1 b.index) h
        constructor
        · simp only [List.take_succ_cons, run_blocks, hp]
          exact hrec.1
        · simp only [List.take_succ_cons, run_blocks, hp]
          rw [hrec.2]

/-! Cycle-level lemmas. -/

theorem run_cycleF_lpb_mono (C : Crypto) (fetch : Except Unit (List Block))
    (failAt : Option (Nat × Nat)) (st : Store) :
    st.last_processed_block ≤ (run_cycleF C fetch failAt st).store.last_processed_block := by
  cases fetch with
  | error e => simp [run_cycleF]
  | ok chain =>
    simp only [run_cycleF]
    by_cases he : (chain.filter (fun b => st.last_processed_block < b.index)).isEmpty = true
    · simp [he]
    · simp only [if_neg he]
      apply run_blocks_lpb_mono
      intro b hb
      have hmem : b ∈ chain.filter (fun b => st.last_processed_block < b.index) :=
        (List.perm_insertionSort blockLe _).mem_iff.mp hb
      have := List.of_mem_filter hmem
      exact of_decide_eq_true this

theorem run_cycleF_key (C : Crypto) (fetch : Except Unit (List Block))
    (failAt : Option (Nat × Nat)) (st : Store) (k : RefKey) :
    chainFrom (headOf st.refs k) (eventsOn k (run_cycleF C fetch failAt st).accepted) = true ∧
    headOf (run_cycleF C fetch failAt st).store.refs k
      = lastHead (headOf st.refs k) (eventsOn k (run_cycleF C fetch failAt st).accepted) := by
  cases fetch with
  | error e => simp [run_cycleF, eventsOn, chainFrom, lastHead]
  | ok chain =>
    simp only [run_cycleF]
    by_cases he : (chain.filter (fun b => st.last_processed_block < b.index)).isEmpty = true
    · simp [he, eventsOn, chainFrom, lastHead]
    · simp only [if_neg he]
      exact run_blocks_key C k _ failAt st

theorem run_cycles_key (C : Crypto) :
    ∀ (cycles : List (Except Unit (List Block) × Option (Nat × Nat))) (st : Store) (k : RefKey),
      chainFrom (headOf st.refs k) (eventsOn k (run_cycles C cycles st).2) = true ∧
      headOf (run_cycles C cycles st).1.refs k
        = lastHead (headOf st.refs k) (eventsOn k (run_cycles C cycles st).2) := by
  intro cycles
  induction cycles with
  | nil =>
    intro st k
    simp [run_cycles, eventsOn, chainFrom, lastHead]
  | cons f rest ih =>
    intro st k
    simp only [run_cycles]
    have h1 := run_cycleF_key C f.1 f.2 st k
    have h2 := ih (run_cycleF C f.1 f.2 st).store k
    rw [eventsOn_append, chainFrom_append, lastHead_append, ← h1.2]
    constructor
    · rw [h1.1]
      simpa using h2.1
    · exact h2.2

/-! Re-delivery machinery: already-processed blocks are dropped by the index
filter, and re-running a cycle over an already-processed chain is a no-op. -/

theorem filter_erase_of_not (p : Block → Bool) (b : Block) (hpb : ¬ p b = true) :
    ∀ l : List Block, (l.erase b).filter p = l.filter p := by
  intro l
  induction l with
  | nil => rfl
  | cons x xs ih =>
    rw [List.erase_cons]
    by_cases hx : (x == b) = true
    · have hxb : x = b := by simpa using hx
      rw [if_pos hx, List.filter_cons_of_neg (by rw [hxb]; exact hpb)]
    · rw [if_neg hx]
      by_cases hpx : p x = true
      · rw [List.filter_cons_of_pos hpx, List.filter_cons_of_pos hpx, ih]
      · rw [List.filter_cons_of_neg hpx, List.filter_cons_of_neg hpx, ih]

theorem run_blocks_rerun (C : Crypto) :
    ∀ (bs : List Block) (st : Store), List.Sorted blockLe bs →
      (bs.map Block.index).Nodup →
      (∀ b ∈ bs, st.last_processed_block < b.index) →
      (run_blocks C none
        (bs.filter (fun b =>
          decide ((run_blocks C none bs st).store.last_processed_block < b.index)))
        (run_blocks C none bs st).store).store
      = (run_blocks C none bs st).store := by
  intro bs
  induction bs with
  | nil =>
    intro st _ _ _
    rfl
  | cons b rest ih =>
    intro st hsort hnd hgt
    have hpb : decide (st.last_processed_block < b.index) = true :=
      decide_eq_true (hgt b (List.mem_cons_self b rest))
    cases hp : process_txs C st.refs b.timestamp b.transactions with
    | error e =>
      simp only [run_blocks, hp]
      rw [List.filter_cons]
      simp only [hpb, if_true]
      simp only [run_blocks, hp]
    | ok pr =>
      obtain ⟨refs1, evs⟩ := pr
      have hstrict : ∀ x ∈ rest, b.index < x.index := by
        intro x hx
        have hle : blockLe b x := List.rel_of_sorted_cons hsort x hx
        have hnotmem : b.index ∉ rest.map Block.index :=
          (List.nodup_cons.mp (by simpa using hnd)).1
        have hne : b.index ≠ x.index := by
          intro hcontra
          exact hnotmem (hcontra ▸ List.mem_map_of_mem Block.index hx)
        exact lt_of_le_of_ne hle hne
      have hnd' : (rest.map Block.index).Nodup :=
        (List.nodup_cons.mp (by simpa using hnd)).2
      have hmono : b.index ≤
          (run_blocks C none rest (Store.mk refs1 b.index)).store.last_processed_block :=
        run_blocks_lpb_mono C rest (Store.mk refs1 b.index) hstrict none
      simp only [run_blocks, hp]
      have hneg : decide ((run_blocks C none rest
          (Store.mk refs1 b.index)).store.last_processed_block < b.index) = false :=
        decide_eq_false (not_lt.mpr hmono)
      rw [List.filter_cons]
      simp only [hneg, if_false]
      exact ih (Store.mk refs1 b.index) hsort.of_cons hnd' hstrict

theorem run_cycle_no_new (C : Crypto) (st : Store) (chain : List Block)
    (hall : ∀ b ∈ chain, b.index ≤ st.last_processed_block) :
    run_cycle C (Except.ok chain) st = st := by
  have he : chain.filter (fun b => decide (st.last_processed_block < b.index)) = [] :=
    List.filter_eq_nil_iff.mpr (fun b hb => by simpa using not_lt.mpr (hall b hb))
  simp [run_cycle, run_cycleF, he]

theorem run_cycleF_cons_old (C : Crypto) (chain : List Block)
    (failAt : Option (Nat × Nat)) (st : Store) (b : Block)
    (hb : b.index ≤ st.last_processed_block) :
    run_cycleF C (Except.ok (b :: chain)) failAt st
      = run_cycleF C (Except.ok chain) failAt st := by
  have hf : decide (st.last_processed_block < b.index) = false :=
    decide_eq_false (not_lt.mpr hb)
  simp [run_cycleF, List.filter_cons, hf]

theorem run_cycleF_erase_old (C : Crypto) (chain : List Block)
    (failAt : Option (Nat × Nat)) (st : Store) (b : Block)
    (hb : b.index ≤ st.last_processed_block) :
    run_cycleF C (Except.ok chain) failAt st
      = run_cycleF C (Except.ok (chain.erase b)) failAt st := by
  simp only [run_cycleF]
  rw [filter_erase_of_not _ b (by simpa using not_lt.mpr hb) chain]

theorem run_cycle_rerun (C : Crypto) (st : Store) (chain : List Block)
    (hnd : (chain.map Block.index).Nodup) :
    run_cycle C (Except.ok chain) (run_cycle C (Except.ok chain) st)
      = run_cycle C (Except.ok chain) st := by
  by_cases he : (chain.filter (fun b => decide (st.last_processed_block < b.index))).isEmpty = true
  · have h1 : run_cycle C (Except.ok chain) st = st := by
      simp only [run_cycle, run_cycleF, if_pos he]
    rw [h1, h1]
  · have h1 : run_cycle C (Except.ok chain) st
        = (run_blocks C none (List.insertionSort blockLe
            (chain.filter (fun b => decide (st.last_processed_block < b.index)))) st).store := by
      simp only [run_cycle, run_cycleF, if_neg he]
    set nb1 := chain.filter (fun b => decide (st.last_processed_block < b.index)) with hnb1
    set bs := List.insertionSort blockLe nb1 with hbs
    set st1 := (run_blocks C none bs st).store with hst1
    have hgt : ∀ b ∈ bs, st.last_processed_block < b.index := by
      intro b hb
      have hmem : b ∈ nb1 := (List.perm_insertionSort blockLe nb1).mem_iff.mp hb
      have hmem2 : b ∈ chain.filter (fun x : Block =>
          decide (st.last_processed_block < x.index)) := by
        rw [← hnb1]
        exact hmem
      have hpb := List.of_mem_filter hmem2
      exact of_decide_eq_true hpb
    have hsortbs : List.Sorted blockLe bs := List.sorted_insertionSort blockLe nb1
    have hnd1 : (nb1.map Block.index).Nodup := by
      have hsub : (nb1.map Block.index).Sublist (chain.map Block.index) := by
        rw [hnb1]
        exact (List.filter_sublist chain).map Block.index
      exact hnd.sublist hsub
    have hndbs : (bs.map Block.index).Nodup := by
      have hperm : List.Perm (nb1.map Block.index) (bs.map Block.index) :=
        ((List.perm_insertionSort blockLe nb1).map Block.index).symm
      exact hperm.nodup hnd1
    have hmono : st.last_processed_block ≤ st1.last_processed_block := by
      rw [hst1]
      exact run_blocks_lpb_mono C bs st hgt none
    rw [h1]
    have hfilt : chain.filter (fun b => decide (st1.last_processed_block < b.index))
        = nb1.filter (fun b => decide (st1.last_processed_block < b.index)) := by
      rw [hnb1, List.filter_filter]
      apply List.filter_congr
      intro b _
      cases hd : decide (st1.last_processed_block < b.index) with
      | false => simp
      | true =>
        have hlt : st.last_processed_block < b.index :=
          lt_of_le_of_lt hmono (of_decide_eq_true hd)
        simp [decide_eq_true hlt]
    by_cases he2 : (chain.filter
        (fun b => decide (st1.last_processed_block < b.index))).isEmpty = true
    · simp only [run_cycle, run_cycleF, if_pos he2]
    · have heq : List.insertionSort blockLe
          (chain.filter (fun b => decide (st1.last_processed_block < b.index)))
          = bs.filter (fun b => decide (st1.last_processed_block < b.index)) := by
        apply sorted_perm_key_eq Block.index blockLe (fun a b h1 h2 => le_antisymm h1 h2)
        · refine (List.perm_insertionSort blockLe _).trans ?_
          rw [hfilt]
          exact ((List.perm_insertionSort blockLe nb1).symm).filter _
        · exact List.sorted_insertionSort blockLe _
        · exact hsortbs.filter _
        · have hsub2 : ((chain.filter
              (fun b => decide (st1.last_processed_block < b.index))).map Block.index).Sublist
              (chain.map Block.index) := (List.filter_sublist chain).map Block.index
          have hnd2 := hnd.sublist hsub2
          exact (((List.perm_insertionSort blockLe
            (chain.filter (fun b => decide (st1.last_processed_block < b.index)))).map
              Block.index).symm).nodup hnd2
      simp only [run_cycle, run_cycleF, if_neg he2]
      rw [heq, hst1]
      exact run_blocks_rerun C bs st hsortbs hndbs hgt

/-! Fault-abort behavior at the cycle level. -/

theorem mem_sortedNew_gt (st : Store) (chain : List Block) (b : Block)
    (hb : b ∈ List.insertionSort blockLe
      (chain.filter (fun x : Block => decide (st.last_processed_block < x.index)))) :
    st.last_processed_block < b.index := by
  have hmem : b ∈ chain.filter (fun x : Block =>
      decide (st.last_processed_block < x.index)) :=
    (List.perm_insertionSort blockLe _).mem_iff.mp hb
  have hpb := List.of_mem_filter hmem
  exact of_decide_eq_true hpb

theorem sortedNew_nodup_index (st : Store) (chain : List Block)
    (hnd : (chain.map Block.index).Nodup) :
    ((List.insertionSort blockLe
      (chain.filter (fun x : Block => decide (st.last_processed_block < x.index)))).map
        Block.index).Nodup := by
  have hsub : ((chain.filter (fun x : Block =>
      decide (st.last_processed_block < x.index))).map Block.index).Sublist
      (chain.map Block.index) := (List.filter_sublist chain).map Block.index
  have hnd2 := hnd.sublist hsub
  exact (((List.perm_insertionSort blockLe _).map Block.index).symm).nodup hnd2

theorem run_blocks_prefix_lpb_lt (C : Crypto) (bs : List Block) (st : Store) (k : Nat)
    (hk : k < bs.length) (hsort : List.Sorted blockLe bs)
    (hnd : (bs.map Block.index).Nodup)
    (hgt : ∀ b ∈ bs, st.last_processed_block < b.index) :
    (run_blocks C none (bs.take k) st).store.last_processed_block
      < (bs.get ⟨k, hk⟩).index := by
  rcases run_blocks_lpb_mem C (bs.take k) none st with h | h
  · rw [h]
    exact hgt _ (List.get_mem bs k hk)
  · obtain ⟨b, hb, hidx⟩ := List.mem_map.mp h
    rw [← hidx]
    have hpair : List.Pairwise (fun a b : Block => a.index < b.index) bs := by
      have h1 : List.Pairwise blockLe bs := hsort
      have h2 : List.Pairwise (fun a b : Block => a.index ≠ b.index) bs :=
        List.pairwise_map.mp hnd
      exact (h1.and h2).imp (fun h => lt_of_le_of_ne h.1 h.2)
    have hsplit := List.take_append_drop k bs
    have hcross : ∀ x ∈ bs.take k, ∀ y ∈ bs.drop k, x.index < y.index :=
      (List.pairwise_append.mp (by rw [hsplit]; exact hpair)).2.2
    have hdropmem : bs.get ⟨k, hk⟩ ∈ bs.drop k := by
      rw [List.drop_eq_getElem_cons hk]
      rw [List.get_eq_getElem]
      exact List.mem_cons_self _ _
    exact hcross b hb _ hdropmem

theorem run_cycleF_fault (C : Crypto) (chain : List Block) (st : Store) (k j : Nat)
    (hnd : (chain.map Block.index).Nodup)
    (hk : k < (List.insertionSort blockLe
      (chain.filter (fun x : Block => decide (st.last_processed_block < x.index)))).length)
    (h : (run_cycleF C (Except.ok chain) (some (k, j)) st).err
      = some CycleErr.sqliteError) :
    (run_cycleF C (Except.ok chain) (some (k, j)) st).store
      = (run_blocks C none ((List.insertionSort blockLe
          (chain.filter (fun x : Block =>
            decide (st.last_processed_block < x.index)))).take k) st).store
    ∧ (run_cycleF C (Except.ok chain) (some (k, j)) st).accepted
      = (run_blocks C none ((List.insertionSort blockLe
          (chain.filter (fun x : Block =>
            decide (st.last_processed_block < x.index)))).take k) st).accepted
    ∧ (run_cycleF C (Except.ok chain) (some (k, j)) st).store.last_processed_block
      < ((List.insertionSort blockLe
          (chain.filter (fun x : Block =>
            decide (st.last_processed_block < x.index)))).get ⟨k, hk⟩).index := by
  by_cases he : (chain.filter (fun x : Block =>
      decide (st.last_processed_block < x.index))).isEmpty = true
  · exfalso
    simp only [run_cycleF, if_pos he] at h
    cases h
  · simp only [run_cycleF, if_neg he] at h ⊢
    have hpre := run_blocks_fault_prefix C
      (List.insertionSort blockLe (chain.filter (fun x : Block =>
        decide (st.last_processed_block < x.index)))) k j st h
    refine ⟨hpre.1, hpre.2, ?_⟩
    rw [hpre.1]
    exact run_blocks_prefix_lpb_lt C _ st k hk
      (List.sorted_insertionSort blockLe _)
      (sortedNew_nodup_index st chain hnd)
      (fun b hb => mem_sortedNew_gt st chain b hb)

/-! Remaining helper lemmas for the claims. -/

theorem run_cycles_lpb_mono (C : Crypto) :
    ∀ (cycles : List (Except Unit (List Block) × Option (Nat × Nat))) (st : Store),
      st.last_processed_block ≤ (run_cycles C cycles st).1.last_processed_block := by
  intro cycles
  induction cycles with
  | nil =>
    intro st
    simp [run_cycles]
  | cons f rest ih =>
    intro st
    simp only [run_cycles]
    exact le_trans (run_cycleF_lpb_mono C f.1 f.2 st) (ih _)

theorem contains_iff_mem_str (s : List String) (x : String) :
    s.contains x = true ↔ x ∈ s := by
  simp [List.contains]

theorem mem_attestation_data_iff (t : Tx) (hnd : keysNodup t) (k v : String) :
    (k, v) ∈ attestation_data t ↔ (k ∈ signedFields ∧ dictGet t k = some v) := by
  simp only [attestation_data, List.mem_filter]
  rw [dictGet_eq_iff_mem t hnd k v]
  constructor
  · rintro ⟨hm, hc⟩
    exact ⟨(contains_iff_mem_str signedFields k).mp hc, hm⟩
  · rintro ⟨hf, hm⟩
    exact ⟨hm, (contains_iff_mem_str signedFields k).mpr hf⟩

theorem attestation_data_nodup (t : Tx) (hnd : keysNodup t) : (attestation_data t).Nodup :=
  (hnd.of_map).filter _

theorem attestation_data_keysNodup (t : Tx) (hnd : keysNodup t) :
    ((attestation_data t).map Prod.fst).Nodup :=
  hnd.sublist ((List.filter_sublist t).map Prod.fst)

/-! Claim theorems. -/

/-- C1: chain-of-custody invariant I1. Over any sequence of process_chain
executions (any fetch outcomes, any injected store faults), for every
(repo_id, ref) key the committed accepted transactions on that key form a
chain: the first accepted old_commit equals the head stored before the
sequence (GENESIS when no row existed), every later accepted old_commit
equals the new_commit of the previous accepted transaction on that key, and
the final stored head is exactly the last accepted new_commit, so no
accepted update skips or forks the chain. -/
theorem c1_chain_of_custody (C : Crypto)
    (cycles : List (Except Unit (List Block) × Option (Nat × Nat)))
    (st : Store) (k : RefKey) :
    chainFrom (headOf st.refs k) (eventsOn k (run_cycles C cycles st).2) = true ∧
    headOf (run_cycles C cycles st).1.refs k
      = lastHead (headOf st.refs k) (eventsOn k (run_cycles C cycles st).2) :=
  run_cycles_key C cycles st k

/-- C2: the claim that verify_signature never raises is false on the code.
On a transaction whose signer_identity is valid hex of the wrong length for
a P-256 point encoding, VerifyingKey.from_string raises MalformedPointError,
which subclasses AssertionError and is therefore not caught by the except
clause listing BadSignatureError, KeyError and ValueError: the exception
escapes verify_signature instead of yielding False. -/
theorem c2_verify_signature_raises (C : Crypto) :
    verify_signature C [("repo_id", "r1"), ("ref", "main"),
      ("old_commit", GENESIS_COMMIT), ("new_commit", GENESIS_COMMIT),
      ("signer_identity", "00"), ("signature", "00")]
      = Except.error PyExc.malformedPointError := rfl

/-- C3: consistency decision on a well-formed, validly signed attestation.
The transaction is accepted, with the new head upserted under the block
timestamp, exactly when its old_commit equals the stored head for
(repo_id, ref); otherwise it is skipped with no state change. For an unseen
key the stored head reads as GENESIS, so old_commit = GENESIS is accepted
as the first entry and any other old_commit is rejected. -/
theorem c3_consistency_decision (C : Crypto) (refs : RefMap) (bts : Int) (tx : Tx)
    (repo rf old nw : String)
    (hall : attestationKeys.all (fun k => dictHas tx k) = true)
    (hrepo : dictGet tx "repo_id" = some repo) (href : dictGet tx "ref" = some rf)
    (hold : dictGet tx "old_commit" = some old) (hnew : dictGet tx "new_commit" = some nw)
    (hsig : verify_signature C tx = Except.ok true) :
    (old = headOf refs (repo, rf) →
      process_tx C refs bts tx = Except.ok
        (refsUpsert refs (repo, rf) (RefRow.mk nw bts),
          some (Accepted.mk repo rf old nw))) ∧
    (old ≠ headOf refs (repo, rf) →
      process_tx C refs bts tx = Except.ok (refs, none)) ∧
    (refsLookup refs (repo, rf) = none →
      ((old = GENESIS_COMMIT →
        process_tx C refs bts tx = Except.ok
          (refsUpsert refs (repo, rf) (RefRow.mk nw bts),
            some (Accepted.mk repo rf old nw))) ∧
       (old ≠ GENESIS_COMMIT →
        process_tx C refs bts tx = Except.ok (refs, none)))) := by
  have e1 : (dictGet tx "repo_id").getD "" = repo := by rw [hrepo]; rfl
  have e2 : (dictGet tx "ref").getD "" = rf := by rw [href]; rfl
  have e3 : (dictGet tx "old_commit").getD "" = old := by rw [hold]; rfl
  have e4 : (dictGet tx "new_commit").getD "" = nw := by rw [hnew]; rfl
  have haccept : old = headOf refs (repo, rf) →
      process_tx C refs bts tx = Except.ok
        (refsUpsert refs (repo, rf) (RefRow.mk nw bts),
          some (Accepted.mk repo rf old nw)) := by
    intro heq
    have := process_tx_accept C refs bts tx hall hsig (by rw [e3, e1, e2]; exact heq)
    rw [e1, e2, e3, e4] at this
    exact this
  have hreject : old ≠ headOf refs (repo, rf) →
      process_tx C refs bts tx = Except.ok (refs, none) := by
    intro hne
    exact process_tx_skip_stale C refs bts tx hsig (by rw [e3, e1, e2]; exact hne)
  refine ⟨haccept, hreject, ?_⟩
  intro hnone
  have hg : headOf refs (repo, rf) = GENESIS_COMMIT := headOf_of_none refs (repo, rf) hnone
  constructor
  · intro hge
    exact haccept (by rw [hge, hg])
  · intro hne
    exact hreject (by rw [hg]; exact hne)

/-- Witness for C3 at a concrete input: on an empty refs table a validly
signed genesis attestation is accepted as the first entry. -/
theorem c3_witness :
    process_tx allCrypto [] 7 (txGen GENESIS_COMMIT commitA)
      = Except.ok (refsUpsert [] ("r1", "main") (RefRow.mk commitA 7),
          some (Accepted.mk "r1" "main" GENESIS_COMMIT commitA)) :=
  (c3_consistency_decision allCrypto [] 7 (txGen GENESIS_COMMIT commitA)
    "r1" "main" GENESIS_COMMIT commitA rfl rfl rfl rfl rfl rfl).1 rfl

/-- C8: transport-failure atomicity. When the chain fetch raises a
RequestException (unreachable node, non-2xx status, timeout), the cycle
mutates neither the checkpoint nor any refs row, commits no attestation,
and the error is of the caught kind, so the poll loop retries on the next
turn. -/
theorem c8_transport_failure (C : Crypto) (failAt : Option (Nat × Nat)) (st : Store) :
    run_cycleF C (Except.error ()) failAt st
      = CycleResult.mk st [] (some CycleErr.requestException) := rfl

/-- C9: partial-block isolation. A transaction skipped for any of the three
reasons (missing required attestation field, signature that verifies false,
old_commit differing from the stored head) leaves the refs state unchanged
and accepts nothing, and such a skipped transaction does not prevent the
remaining transactions of the block, processed in block order, from being
evaluated and possibly accepted: the loop over the rest behaves as if the
skipped transaction were absent. -/
theorem c9_partial_block_isolation :
    (∀ (C : Crypto) (refs : RefMap) (bts : Int) (tx : Tx),
      attestationKeys.all (fun k => dictHas tx k) = false →
      process_tx C refs bts tx = Except.ok (refs, none)) ∧
    (∀ (C : Crypto) (refs : RefMap) (bts : Int) (tx : Tx),
      verify_signature C tx = Except.ok false →
      process_tx C refs bts tx = Except.ok (refs, none)) ∧
    (∀ (C : Crypto) (refs : RefMap) (bts : Int) (tx : Tx),
      verify_signature C tx = Except.ok true →
      (dictGet tx "old_commit").getD "" ≠
        headOf refs ((dictGet tx "repo_id").getD "", (dictGet tx "ref").getD "") →
      process_tx C refs bts tx = Except.ok (refs, none)) ∧
    (∀ (C : Crypto) (refs : RefMap) (bts : Int) (tx : Tx) (rest : List Tx),
      process_tx C refs bts tx = Except.ok (refs, none) →
      process_txs C refs bts (tx :: rest) = process_txs C refs bts rest) :=
  ⟨process_tx_skip_missing,
   fun C refs bts tx h => process_tx_skip_badsig C refs bts tx h,
   fun C refs bts tx hsig hne => process_tx_skip_stale C refs bts tx hsig hne,
   fun C refs bts tx rest h => process_txs_skip C refs bts tx rest h⟩

/-- Witness for C9 at a concrete input: a non-attestation record at the head
of a block does not stop the genesis attestation behind it. -/
theorem c9_witness :
    process_txs allCrypto [] 3 ([("foo", "bar")] :: [txGen GENESIS_COMMIT commitA])
      = process_txs allCrypto [] 3 [txGen GENESIS_COMMIT commitA] :=
  c9_partial_block_isolation.2.2.2 allCrypto [] 3 [("foo", "bar")]
    [txGen GENESIS_COMMIT commitA] rfl

/-- C4: checkpoint invariant I2. (1) One process_chain call never decreases
last_processed_block, whatever the fetch outcome or injected store fault;
(2) neither does any sequence of calls; (3) a block whose index is at most
the current checkpoint is dropped by the fetch-side filter, so prepending it
to the fetched chain changes nothing and it is never re-evaluated; (4) when
a store fault aborts the cycle while the k-th new block is being processed,
the committed checkpoint stays strictly below that block index: the
checkpoint reaches a block index only after the whole block, refs rows and
checkpoint together, has been committed. -/
theorem c4_checkpoint_monotonic :
    (∀ (C : Crypto) (fetch : Except Unit (List Block)) (failAt : Option (Nat × Nat))
        (st : Store),
      st.last_processed_block ≤ (run_cycleF C fetch failAt st).store.last_processed_block) ∧
    (∀ (C : Crypto) (cycles : List (Except Unit (List Block) × Option (Nat × Nat)))
        (st : Store),
      st.last_processed_block ≤ (run_cycles C cycles st).1.last_processed_block) ∧
    (∀ (C : Crypto) (chain : List Block) (failAt : Option (Nat × Nat)) (st : Store)
        (b : Block),
      b.index ≤ st.last_processed_block →
      run_cycleF C (Except.ok (b :: chain)) failAt st
        = run_cycleF C (Except.ok chain) failAt st) ∧
    (∀ (C : Crypto) (chain : List Block) (st : Store) (k j : Nat)
        (hnd : (chain.map Block.index).Nodup)
        (hk : k < (List.insertionSort blockLe (chain.filter (fun x : Block =>
          decide (st.last_processed_block < x.index)))).length),
      (run_cycleF C (Except.ok chain) (some (k, j)) st).err = some CycleErr.sqliteError →
      (run_cycleF C (Except.ok chain) (some (k, j)) st).store.last_processed_block
        < ((List.insertionSort blockLe (chain.filter (fun x : Block =>
            decide (st.last_processed_block < x.index)))).get ⟨k, hk⟩).index) :=
  ⟨fun C fetch failAt st => run_cycleF_lpb_mono C fetch failAt st,
   fun C cycles st => run_cycles_lpb_mono C cycles st,
   fun C chain failAt st b hb => run_cycleF_cons_old C chain failAt st b hb,
   fun C chain st k j hnd hk h => (run_cycleF_fault C chain st k j hnd hk h).2.2⟩

/-- Witness for C4 at a concrete input: a block with index 3 is filtered out
when the checkpoint already stands at 5. -/
theorem c4_witness :
    run_cycleF allCrypto (Except.ok [Block.mk 3 0 []]) none (Store.mk [] 5)
      = run_cycleF allCrypto (Except.ok []) none (Store.mk [] 5) :=
  c4_checkpoint_monotonic.2.2.1 allCrypto [] none (Store.mk [] 5) (Block.mk 3 0 [])
    (by decide)

/-- C5: idempotence of re-delivery. (1) A cycle over a chain whose blocks
are all already reflected in the checkpoint leaves the store exactly as it
was; (2) a block with index at most the checkpoint contributes nothing: the
cycle over a chain containing it equals the cycle over the chain with it
removed, because the index filter excludes it before any validation; (3)
with the block indices of the chain pairwise distinct, running the same
cycle twice yields the same committed store as running it once. -/
theorem c5_redelivery_idempotent :
    (∀ (C : Crypto) (st : Store) (chain : List Block),
      (∀ b ∈ chain, b.index ≤ st.last_processed_block) →
      run_cycle C (Except.ok chain) st = st) ∧
    (∀ (C : Crypto) (st : Store) (chain : List Block) (failAt : Option (Nat × Nat))
        (b : Block), b ∈ chain → b.index ≤ st.last_processed_block →
      run_cycleF C (Except.ok chain) failAt st
        = run_cycleF C (Except.ok (chain.erase b)) failAt st) ∧
    (∀ (C : Crypto) (st : Store) (chain : List Block),
      (chain.map Block.index).Nodup →
      run_cycle C (Except.ok chain) (run_cycle C (Except.ok chain) st)
        = run_cycle C (Except.ok chain) st) :=
  ⟨fun C st chain hall => run_cycle_no_new C st chain hall,
   fun C st chain failAt b _ hb => run_cycleF_erase_old C chain failAt st b hb,
   fun C st chain hnd => run_cycle_rerun C st chain hnd⟩

/-- Witness for C5 at a concrete input: re-running the cycle over a
one-block chain that was just processed changes nothing. -/
theorem c5_witness :
    run_cycle allCrypto (Except.ok [Block.mk 1 100 [txGen GENESIS_COMMIT commitA]])
      (run_cycle allCrypto (Except.ok [Block.mk 1 100 [txGen GENESIS_COMMIT commitA]])
        (Store.mk [] 0))
      = run_cycle allCrypto (Except.ok [Block.mk 1 100 [txGen GENESIS_COMMIT commitA]])
          (Store.mk [] 0) :=
  c5_redelivery_idempotent.2.2 allCrypto (Store.mk [] 0)
    [Block.mk 1 100 [txGen GENESIS_COMMIT commitA]] (by decide)

/-- C6: durable-store failure atomicity. When a sqlite write or commit
fails while the k-th new block of the cycle is being processed, the
committed store equals the store left by a fault-free run over the first k
new blocks alone: blocks committed earlier in the same cycle stay
committed, nothing of the failing block, rows or checkpoint, is visible
(the open sqlite transaction is rolled back when the connection closes), so
no partially applied block exists and the checkpoint stays strictly below
the failing block index; the cycle is abandoned on the caught error and the
next cycle retries from the unadvanced checkpoint. -/
theorem c6_store_failure_atomicity (C : Crypto) (chain : List Block) (st : Store)
    (k j : Nat) (hnd : (chain.map Block.index).Nodup)
    (hk : k < (List.insertionSort blockLe (chain.filter (fun x : Block =>
      decide (st.last_processed_block < x.index)))).length)
    (h : (run_cycleF C (Except.ok chain) (some (k, j)) st).err
      = some CycleErr.sqliteError) :
    (run_cycleF C (Except.ok chain) (some (k, j)) st).store
      = (run_blocks C none ((List.insertionSort blockLe (chain.filter (fun x : Block =>
          decide (st.last_processed_block < x.index)))).take k) st).store
    ∧ (run_cycleF C (Except.ok chain) (some (k, j)) st).accepted
      = (run_blocks C none ((List.insertionSort blockLe (chain.filter (fun x : Block =>
          decide (st.last_processed_block < x.index)))).take k) st).accepted
    ∧ (run_cycleF C (Except.ok chain) (some (k, j)) st).store.last_processed_block
      < ((List.insertionSort blockLe (chain.filter (fun x : Block =>
          decide (st.last_processed_block < x.index)))).get ⟨k, hk⟩).index :=
  run_cycleF_fault C chain st k j hnd hk h

/-- Witness for C6 at a concrete input: a fault on the first write of the
first new block leaves the store at its pre-cycle value. -/
theorem c6_witness :
    (run_cycleF allCrypto (Except.ok [Block.mk 1 100 [txGen GENESIS_COMMIT commitA]])
      (some (0, 0)) (Store.mk [] 0)).store = Store.mk [] 0 := by
  have h := c6_store_failure_atomicity allCrypto
    [Block.mk 1 100 [txGen GENESIS_COMMIT commitA]] (Store.mk [] 0) 0 0
    (by decide) (by decide) rfl
  rw [h.1]
  rfl

/-- C7: canonical signed message. The dict comprehension keeps only items
keyed by the four signed fields (signer_identity, signature and any extra
fields are excluded), and with dict keys unique the serialized message,
items sorted by key, is a function of the values of exactly those four
fields: two transactions agreeing on repo_id, ref, old_commit and
new_commit produce the same canonical message. -/
theorem c7_canonical_message :
    (∀ (t : Tx), ∀ p ∈ attestation_data t, p.1 ∈ signedFields) ∧
    (∀ (t1 t2 : Tx), keysNodup t1 → keysNodup t2 →
      (∀ k ∈ signedFields, dictGet t1 k = dictGet t2 k) →
      canonical_message t1 = canonical_message t2) := by
  constructor
  · intro t p hp
    have hc := List.of_mem_filter hp
    exact (contains_iff_mem_str signedFields p.1).mp hc
  · intro t1 t2 h1 h2 hagree
    unfold canonical_message
    congr 1
    apply sorted_perm_key_eq Prod.fst itemLe
      (fun a b ha hb => pyStrLe_antisymm a.1 b.1 ha hb)
    · have hmid : List.Perm (attestation_data t1) (attestation_data t2) := by
        apply (List.perm_ext_iff_of_nodup (attestation_data_nodup t1 h1)
          (attestation_data_nodup t2 h2)).mpr
        intro p
        obtain ⟨pk, pv⟩ := p
        rw [mem_attestation_data_iff t1 h1 pk pv, mem_attestation_data_iff t2 h2 pk pv]
        constructor
        · rintro ⟨hf, hg⟩
          exact ⟨hf, by rw [← hagree pk hf]; exact hg⟩
        · rintro ⟨hf, hg⟩
          exact ⟨hf, by rw [hagree pk hf]; exact hg⟩
      exact (List.perm_insertionSort itemLe _).trans
        (hmid.trans (List.perm_insertionSort itemLe _).symm)
    · exact List.sorted_insertionSort itemLe _
    · exact List.sorted_insertionSort itemLe _
    · exact (((List.perm_insertionSort itemLe (attestation_data t1)).map
        Prod.fst).symm).nodup (attestation_data_keysNodup t1 h1)

/-- Witness for C7 at a concrete input: changing signer_identity and
signature and adding an extra field does not change the canonical
message. -/
theorem c7_witness :
    canonical_message (txGen GENESIS_COMMIT commitA)
      = canonical_message [("repo_id", "r1"), ("ref", "main"),
          ("old_commit", GENESIS_COMMIT), ("new_commit", commitA),
          ("signer_identity", "ff"), ("signature", ""), ("extra", "x")] :=
  c7_canonical_message.2 (txGen GENESIS_COMMIT commitA)
    [("repo_id", "r1"), ("ref", "main"),
      ("old_commit", GENESIS_COMMIT), ("new_commit", commitA),
      ("signer_identity", "ff"), ("signature", ""), ("extra", "x")]
    (by decide) (by decide) (by decide)

/-- C10: intra-block chaining. In a block holding two well-formed, validly
signed attestations on the same (repo_id, ref), where the first moves the
stored head and the second states the first new_commit as its old_commit,
one cycle accepts both: the consistency check of the second reads the head
already updated by the first inside the same uncommitted block, and the
committed row holds the second new_commit with the block timestamp, the
checkpoint holds the block index, and both acceptances are recorded in
order. -/
theorem c10_intra_block_chaining (C : Crypto) (st : Store) (b : Block)
    (t1 t2 : Tx) (r f o1 n1 n2 : String)
    (htx : b.transactions = [t1, t2])
    (hidx : st.last_processed_block < b.index)
    (hall1 : attestationKeys.all (fun k => dictHas t1 k) = true)
    (hall2 : attestationKeys.all (fun k => dictHas t2 k) = true)
    (hsig1 : verify_signature C t1 = Except.ok true)
    (hsig2 : verify_signature C t2 = Except.ok true)
    (h1r : dictGet t1 "repo_id" = some r) (h1f : dictGet t1 "ref" = some f)
    (h1o : dictGet t1 "old_commit" = some o1) (h1n : dictGet t1 "new_commit" = some n1)
    (h2r : dictGet t2 "repo_id" = some r) (h2f : dictGet t2 "ref" = some f)
    (h2o : dictGet t2 "old_commit" = some n1) (h2n : dictGet t2 "new_commit" = some n2)
    (hhead : o1 = headOf st.refs (r, f)) :
    refsLookup (run_cycleF C (Except.ok [b]) none st).store.refs (r, f)
      = some (RefRow.mk n2 b.timestamp)
    ∧ (run_cycleF C (Except.ok [b]) none st).store.last_processed_block = b.index
    ∧ (run_cycleF C (Except.ok [b]) none st).accepted
      = [Accepted.mk r f o1 n1, Accepted.mk r f n1 n2] := by
  have e1r : (dictGet t1 "repo_id").getD "" = r := by rw [h1r]; rfl
  have e1f : (dictGet t1 "ref").getD "" = f := by rw [h1f]; rfl
  have e1o : (dictGet t1 "old_commit").getD "" = o1 := by rw [h1o]; rfl
  have e1n : (dictGet t1 "new_commit").getD "" = n1 := by rw [h1n]; rfl
  have e2r : (dictGet t2 "repo_id").getD "" = r := by rw [h2r]; rfl
  have e2f : (dictGet t2 "ref").getD "" = f := by rw [h2f]; rfl
  have e2o : (dictGet t2 "old_commit").getD "" = n1 := by rw [h2o]; rfl
  have e2n : (dictGet t2 "new_commit").getD "" = n2 := by rw [h2n]; rfl
  have hacc1 := process_tx_accept C st.refs b.timestamp t1 hall1 hsig1
    (by rw [e1o, e1r, e1f]; exact hhead)
  rw [e1r, e1f, e1o, e1n] at hacc1
  have hh2 : (dictGet t2 "old_commit").getD ""
      = headOf (refsUpsert st.refs (r, f) (RefRow.mk n1 b.timestamp))
          ((dictGet t2 "repo_id").getD "", (dictGet t2 "ref").getD "") := by
    rw [e2o, e2r, e2f, headOf_upsert_self]
  have hacc2 := process_tx_accept C
    (refsUpsert st.refs (r, f) (RefRow.mk n1 b.timestamp)) b.timestamp t2 hall2 hsig2 hh2
  rw [e2r, e2f, e2o, e2n] at hacc2
  have hptxs : process_txs C st.refs b.timestamp b.transactions = Except.ok
      (refsUpsert (refsUpsert st.refs (r, f) (RefRow.mk n1 b.timestamp)) (r, f)
        (RefRow.mk n2 b.timestamp),
       [Accepted.mk r f o1 n1, Accepted.mk r f n1 n2]) := by
    rw [htx]
    simp only [process_txs, hacc1, hacc2]
    rfl
  have hpb : decide (st.last_processed_block < b.index) = true := decide_eq_true hidx
  have hfil : ([b] : List Block).filter (fun x : Block =>
      decide (st.last_processed_block < x.index)) = [b] := by
    simp [List.filter_cons, hpb]
  have hsort1 : List.insertionSort blockLe [b] = [b] := rfl
  simp only [run_cycleF, hfil, hsort1, List.isEmpty_cons, Bool.false_eq_true, if_false]
  simp only [run_blocks, hptxs]
  refine ⟨refsLookup_upsert_self _ _ _, ?_, ?_⟩ <;> simp

/-- Witness for C10 at a concrete input: two chained attestations in one
block leave the second new_commit as the stored head. -/
theorem c10_witness :
    refsLookup (run_cycleF allCrypto (Except.ok [Block.mk 1 100
      [txGen GENESIS_COMMIT commitA, txGen commitA commitB]]) none
      (Store.mk [] 0)).store.refs ("r1", "main") = some (RefRow.mk commitB 100) :=
  (c10_intra_block_chaining allCrypto (Store.mk [] 0)
    (Block.mk 1 100 [txGen GENESIS_COMMIT commitA, txGen commitA commitB])
    (txGen GENESIS_COMMIT commitA) (txGen commitA commitB)
    "r1" "main" GENESIS_COMMIT commitA commitB
    rfl (by decide) rfl rfl rfl rfl rfl rfl rfl rfl rfl rfl rfl rfl rfl).1
